import Mathlib

/-!
Verification of the two disk-block allocators of the repository:
the bitmap allocator of `ai-generated-bitmap-code-in-C.c` (the same
algorithm appears as `find_and_take_blocks` in the human-commented C
variant) and the linked-free-list allocator of
`ai-generated-linked-list-allocation-code-in-C.c` (the same algorithm
appears as `allocate_file_blocks` in the human-commented C variant).

The embedding follows the C sources line by line.  `uint8_t` bytes are
`Nat` values (kept below 256 by the operations actually performed);
C `int` parameters and return values are `Int`; the C `for`/`while`
loops are recursions on an explicit iteration counter equal to the
number of loop iterations still to run.
-/

namespace Bitmap

/-- BLOCK_COUNT from the C source. -/
def BLOCK_COUNT : Nat := 64

/-- BITS_IN_BYTE from the C source. -/
def BITS_IN_BYTE : Nat := 8

/-- MAP_SIZE = (BLOCK_COUNT + BITS_IN_BYTE - 1) / BITS_IN_BYTE. -/
def MAP_SIZE : Nat := (BLOCK_COUNT + BITS_IN_BYTE - 1) / BITS_IN_BYTE

/-- The global `uint8_t allocation_map[MAP_SIZE]`, one `Nat` per byte. -/
abbrev Map := List Nat

/-- map_init: memset(allocation_map, 0, MAP_SIZE). -/
def map_init : Map := List.replicate MAP_SIZE 0

/-- check_block_status (from the human-commented variant): reads bit
`i % 8` of byte `i / 8`; this is the free/used status of block `i`
(`false` = free, `true` = used). -/
def check_block_status (m : Map) (i : Nat) : Bool :=
  (m.getD (i / BITS_IN_BYTE) 0).testBit (i % BITS_IN_BYTE)

/-- One step of the marking loop: `allocation_map[blk/8] |= (1 << blk%8)`. -/
def setBlk (m : Map) (blk : Nat) : Map :=
  m.set (blk / BITS_IN_BYTE)
    ((m.getD (blk / BITS_IN_BYTE) 0) ||| (1 <<< (blk % BITS_IN_BYTE)))

/-- One step of the clearing loop:
`allocation_map[blk/8] &= ~(1 << blk%8)`; the complement is taken at
the width of the stored `uint8_t`, i.e. against the mask 255. -/
def clearBlk (m : Map) (blk : Nat) : Map :=
  m.set (blk / BITS_IN_BYTE)
    ((m.getD (blk / BITS_IN_BYTE) 0) &&& (255 ^^^ (1 <<< (blk % BITS_IN_BYTE))))

/-- The commit loop inside `allocate_contiguous`: for j = 0..n-1 set
block begin+j used (modelled by recursion on the remaining count). -/
def markRun : Map → Nat → Nat → Map
  | m, _, 0 => m
  | m, blk, n + 1 => markRun (setBlk m blk) (blk + 1) n

/-- The scan loop of `allocate_contiguous` / `find_and_take_blocks`.
`fuel` is the number of loop iterations still to run (the loop visits
`i = 0 .. BLOCK_COUNT-1`, so `fuel = BLOCK_COUNT - i`); `seq` is the
running count of consecutive free blocks and `begin` the start index of
the current free run (-1 when there is no current run, exactly as in
the C source).  On success it returns `begin`; the marking itself is
done by the caller with `markRun`, which performs exactly the writes
the C code performs at the success point before returning. -/
def scanFrom (m : Map) (need : Nat) : Nat → Nat → Nat → Int → Option Int
  | 0, _, _, _ => none
  | fuel + 1, i, seq, begin =>
    if check_block_status m i = false then
      let begin' := if seq = 0 then (i : Int) else begin
      if seq + 1 = need then some begin'
      else scanFrom m need fuel (i + 1) (seq + 1) begin'
    else scanFrom m need fuel (i + 1) 0 (-1)

/-- allocate_contiguous / find_and_take_blocks: validates
`need <= 0 || need > BLOCK_COUNT`, then runs the first-fit scan from
block 0; on success the blocks `[begin, begin+need)` are marked used
and `begin` is returned, otherwise -1 with the map untouched. -/
def allocate_contiguous (m : Map) (need : Int) : Int × Map :=
  if need ≤ 0 ∨ (BLOCK_COUNT : Int) < need then (-1, m)
  else
    match scanFrom m need.toNat BLOCK_COUNT 0 0 (-1) with
    | some begin => (begin, markRun m begin.toNat need.toNat)
    | none => (-1, m)

/-- free_contiguous / give_back_blocks: for i = 0..cnt-1 clear block
start+i (recursion on the remaining count, clearing in ascending
order exactly as the C loop does). -/
def free_contiguous : Map → Nat → Nat → Map
  | m, _, 0 => m
  | m, start, cnt + 1 => free_contiguous (clearBlk m start) (start + 1) cnt

/-- A free contiguous run of `n` blocks at `[s, s+n)` inside the pool. -/
def FreeRun (m : Map) (s n : Nat) : Prop :=
  s + n ≤ BLOCK_COUNT ∧ ∀ j < n, check_block_status m (s + j) = false

instance (m : Map) (s n : Nat) : Decidable (FreeRun m s n) := by
  unfold FreeRun; infer_instance

lemma getD_set_self (l : List Nat) (i a : Nat) (h : i < l.length) :
    (l.set i a).getD i 0 = a := by
  simp [List.getD_eq_getElem?_getD, List.getElem?_set_self, h]

lemma getD_set_ne (l : List Nat) (i j a : Nat) (h : i ≠ j) :
    (l.set i a).getD j 0 = l.getD j 0 := by
  simp [List.getD_eq_getElem?_getD, List.getElem?_set_ne h]

lemma testBit_one_shl (b k : Nat) : ((1 : Nat) <<< b).testBit k = decide (k = b) := by
  simp [Nat.shiftLeft_eq, Nat.testBit_two_pow, eq_comm]

lemma testBit_255 (k : Nat) (h : k < 8) : Nat.testBit 255 k = true := by
  have h255 : (255 : Nat) = 2 ^ 8 - 1 := by norm_num
  rw [h255, Nat.testBit_two_pow_sub_one]; simpa using h

lemma length_setBlk (m : Map) (b : Nat) : (setBlk m b).length = m.length := by
  simp [setBlk]

lemma length_clearBlk (m : Map) (b : Nat) : (clearBlk m b).length = m.length := by
  simp [clearBlk]

lemma length_markRun : ∀ (n : Nat) (m : Map) (b : Nat),
    (markRun m b n).length = m.length
  | 0, _, _ => rfl
  | n + 1, m, b => by
    rw [markRun, length_markRun n, length_setBlk]

lemma length_free_contiguous : ∀ (n : Nat) (m : Map) (s : Nat),
    (free_contiguous m s n).length = m.length
  | 0, _, _ => rfl
  | n + 1, m, s => by
    rw [free_contiguous, length_free_contiguous n, length_clearBlk]

lemma div8_lt (b : Nat) (h : b < 64) : b / 8 < 8 := by omega

/-- Setting block `b` used flips exactly block `b`'s status. -/
lemma check_setBlk (m : Map) (b i : Nat) (hlen : m.length = MAP_SIZE)
    (hb : b < BLOCK_COUNT) :
    check_block_status (setBlk m b) i =
      if i = b then true else check_block_status m i := by
  have hblen : b / 8 < m.length := by
    rw [hlen]; exact div8_lt b hb
  simp only [check_block_status, setBlk, BITS_IN_BYTE]
  by_cases hby : i / 8 = b / 8
  · rw [hby, getD_set_self _ _ _ hblen]
    simp only [Nat.testBit_or, testBit_one_shl]
    by_cases hbit : i % 8 = b % 8
    · have : i = b := by omega
      simp [this]
    · have : i ≠ b := by omega
      simp [this, hbit]
  · have : i ≠ b := by omega
    rw [getD_set_ne _ _ _ _ (Ne.symm hby)]
    simp [this]

/-- Clearing block `b` makes block `b` free (unconditionally: when the
byte index is out of range both the write and the read miss). -/
lemma check_clearBlk_self (m : Map) (b : Nat) :
    check_block_status (clearBlk m b) b = false := by
  simp only [check_block_status, clearBlk, BITS_IN_BYTE]
  by_cases hblen : b / 8 < m.length
  · rw [getD_set_self _ _ _ hblen]
    simp only [Nat.testBit_and, Nat.testBit_xor, testBit_one_shl,
      testBit_255 (b % 8) (Nat.mod_lt b (by norm_num))]
    simp
  · push_neg at hblen
    rw [List.set_eq_of_length_le (by simpa using hblen)]
    rw [List.getD_eq_default _ _ (by simpa using hblen)]
    simp

/-- Clearing block `b` leaves every other block's status unchanged. -/
lemma check_clearBlk_other (m : Map) (b i : Nat) (h : i ≠ b) :
    check_block_status (clearBlk m b) i = check_block_status m i := by
  simp only [check_block_status, clearBlk, BITS_IN_BYTE]
  by_cases hby : i / 8 = b / 8
  · by_cases hblen : b / 8 < m.length
    · have hbit : i % 8 ≠ b % 8 := by omega
      rw [hby, getD_set_self _ _ _ hblen]
      simp only [Nat.testBit_and, Nat.testBit_xor, testBit_one_shl,
        testBit_255 (i % 8) (Nat.mod_lt i (by norm_num)), hbit]
      simp
    · push_neg at hblen
      rw [List.set_eq_of_length_le (by simpa using hblen)]
  · rw [getD_set_ne _ _ _ _ (Ne.symm hby)]

/-- The commit loop marks exactly `[b, b+n)` used and changes no other
block's status. -/
lemma check_markRun : ∀ (n : Nat) (m : Map) (b : Nat), m.length = MAP_SIZE →
    b + n ≤ BLOCK_COUNT → ∀ i,
    check_block_status (markRun m b n) i =
      if b ≤ i ∧ i < b + n then true else check_block_status m i
  | 0, m, b, _, _, i => by
    simp only [markRun]
    have : ¬ (b ≤ i ∧ i < b + 0) := by omega
    simp [this]
  | n + 1, m, b, hlen, hbn, i => by
    rw [markRun]
    rw [check_markRun n (setBlk m b) (b + 1)
      (by rw [length_setBlk]; exact hlen) (by omega) i]
    rw [check_setBlk m b i hlen (by have := hbn; unfold BLOCK_COUNT at *; omega)]
    by_cases h1 : b + 1 ≤ i ∧ i < b + 1 + n
    · have : b ≤ i ∧ i < b + (n + 1) := by omega
      simp [h1, this]
    · by_cases h2 : i = b
      · have : b ≤ i ∧ i < b + (n + 1) := by omega
        simp [h1, h2, this]
      · have : (b ≤ i ∧ i < b + (n + 1)) ↔ False := by
          constructor
          · intro hc; exact absurd (by omega : b + 1 ≤ i ∧ i < b + 1 + n) h1
          · exact False.elim
        simp [h1, h2, this]

/-- Scan-loop invariant, success case: when a lowest-indexed free run
of length `need` exists, the scan returns its start.  `fuel` is the
remaining iteration count, `seq` the current run length; the blocks
`[i-seq, i)` are the current free run and nothing before it fits. -/
lemma scanFrom_some (m : Map) (need : Nat) (hneed : 0 < need) (start : Nat)
    (hrun : FreeRun m start need)
    (hlow : ∀ t, t < start → ¬ FreeRun m t need) :
    ∀ (fuel : Nat), ∀ (i seq : Nat) (begin : Int),
      fuel + i = BLOCK_COUNT → seq ≤ i → seq < need →
      (∀ j, i - seq ≤ j → j < i → check_block_status m j = false) →
      (0 < seq → begin = ((i - seq : Nat) : Int)) →
      (∀ s, s < i - seq → ¬ FreeRun m s need) →
      scanFrom m need fuel i seq begin = some (start : Int) := by
  have hBC : BLOCK_COUNT = 64 := rfl
  intro fuel
  induction fuel with
  | zero =>
    intro i seq begin hfi hsi hsn hfr hbeg hnofit
    exfalso
    have h1 : ¬ start < i - seq := fun h => hnofit start h hrun
    obtain ⟨hb, _⟩ := hrun
    omega
  | succ fuel ih =>
    intro i seq begin hfi hsi hsn hfr hbeg hnofit
    have hi64 : i < 64 := by omega
    rw [scanFrom]
    by_cases hfree : check_block_status m i = false
    · rw [if_pos hfree]
      by_cases hdone : seq + 1 = need
      · rw [if_pos hdone]
        have hfit : FreeRun m (i - seq) need := by
          refine ⟨by omega, fun j hj => ?_⟩
          by_cases hj' : j < seq
          · exact hfr (i - seq + j) (by omega) (by omega)
          · have : i - seq + j = i := by omega
            rw [this]; exact hfree
        have hstart : start = i - seq := by
          have h1 : ¬ start < i - seq := fun h => hnofit start h hrun
          have h2 : ¬ i - seq < start := fun h => hlow (i - seq) h hfit
          omega
        by_cases hseq0 : seq = 0
        · simp only [hseq0, if_pos rfl]
          subst hstart
          simp [hseq0]
        · rw [if_neg hseq0, hbeg (by omega), hstart]
      · rw [if_neg hdone]
        by_cases hseq0 : seq = 0
        · rw [if_pos hseq0]
          refine ih (i + 1) (seq + 1) ((i : Nat) : Int) (by omega) (by omega)
            (by omega) (fun j h1 h2 => ?_) (fun _ => by simp [hseq0]) ?_
          · by_cases hj : j < i
            · exact hfr j (by omega) hj
            · have : j = i := by omega
              rw [this]; exact hfree
          · intro s hs
            exact hnofit s (by omega)
        · rw [if_neg hseq0]
          refine ih (i + 1) (seq + 1) begin (by omega) (by omega)
            (by omega) (fun j h1 h2 => ?_) (fun _ => ?_) ?_
          · by_cases hj : j < i
            · exact hfr j (by omega) hj
            · have : j = i := by omega
              rw [this]; exact hfree
          · rw [hbeg (by omega)]
            congr 1
            omega
          · intro s hs
            exact hnofit s (by omega)
    · rw [if_neg hfree]
      have hused : check_block_status m i = true := by
        cases h : check_block_status m i
        · exact absurd h hfree
        · rfl
      refine ih (i + 1) 0 (-1) (by omega) (by omega) hneed
        (fun j h1 h2 => by omega) (fun h => by omega) ?_
      intro s hs
      by_cases hs' : s < i - seq
      · exact hnofit s hs'
      · intro ⟨hsb, hsf⟩
        by_cases hcase : i < s + need
        · have hif : check_block_status m (s + (i - s)) = false :=
            hsf (i - s) (by omega)
          have : s + (i - s) = i := by omega
          rw [this] at hif
          rw [hif] at hused
          exact Bool.false_ne_true hused
        · have : need ≤ seq := by
            have hall : ∀ j < need, check_block_status m (s + j) = false := hsf
            omega
          omega

/-- Scan-loop invariant, failure case: when no free run of length
`need` exists anywhere, the scan returns none. -/
lemma scanFrom_none (m : Map) (need : Nat) (hneed : 0 < need)
    (hnone : ∀ s, ¬ FreeRun m s need) :
    ∀ (fuel : Nat), ∀ (i seq : Nat) (begin : Int),
      fuel + i = BLOCK_COUNT → seq ≤ i → seq < need →
      (∀ j, i - seq ≤ j → j < i → check_block_status m j = false) →
      scanFrom m need fuel i seq begin = none := by
  have hBC : BLOCK_COUNT = 64 := rfl
  intro fuel
  induction fuel with
  | zero => intro i seq begin _ _ _ _; rfl
  | succ fuel ih =>
    intro i seq begin hfi hsi hsn hfr
    have hi64 : i < 64 := by omega
    rw [scanFrom]
    by_cases hfree : check_block_status m i = false
    · rw [if_pos hfree]
      by_cases hdone : seq + 1 = need
      · exfalso
        refine hnone (i - seq) ⟨by omega, fun j hj => ?_⟩
        by_cases hj' : j < seq
        · exact hfr (i - seq + j) (by omega) (by omega)
        · have : i - seq + j = i := by omega
          rw [this]; exact hfree
      · rw [if_neg hdone]
        have hstep : ∀ j, i + 1 - (seq + 1) ≤ j → j < i + 1 →
            check_block_status m j = false := by
          intro j h1 h2
          by_cases hj : j < i
          · exact hfr j (by omega) hj
          · have : j = i := by omega
            rw [this]; exact hfree
        by_cases hseq0 : seq = 0
        · rw [if_pos hseq0]
          exact ih (i + 1) (seq + 1) _ (by omega) (by omega) (by omega) hstep
        · rw [if_neg hseq0]
          exact ih (i + 1) (seq + 1) _ (by omega) (by omega) (by omega) hstep
    · rw [if_neg hfree]
      exact ih (i + 1) 0 (-1) (by omega) (by omega) hneed (fun j h1 h2 => by omega)

/-- allocate_contiguous on a valid request with a lowest fitting run:
returns the run's start and commits exactly that run. -/
lemma allocate_pos (m : Map) (need start : Nat) (h1 : 1 ≤ need)
    (h2 : need ≤ BLOCK_COUNT) (hrun : FreeRun m start need)
    (hlow : ∀ t, t < start → ¬ FreeRun m t need) :
    allocate_contiguous m (need : Int) = ((start : Int), markRun m start need) := by
  have hBC : BLOCK_COUNT = 64 := rfl
  have hval : ¬ ((need : Int) ≤ 0 ∨ (BLOCK_COUNT : Int) < (need : Int)) := by
    rw [hBC] at h2 ⊢
    push_neg
    constructor <;> [exact_mod_cast h1; exact_mod_cast h2]
  rw [allocate_contiguous, if_neg hval]
  have htn : (need : Int).toNat = need := Int.toNat_natCast need
  rw [htn]
  rw [scanFrom_some m need (by omega) start hrun hlow BLOCK_COUNT 0 0 (-1)
    (by omega) (by omega) (by omega) (fun j hj1 hj2 => by omega) (by omega)
    (fun s hs => by omega)]
  simp

/-- allocate_contiguous on a valid request with no fitting run:
returns -1 and leaves the map untouched. -/
lemma allocate_fail (m : Map) (need : Nat) (h1 : 1 ≤ need)
    (h2 : need ≤ BLOCK_COUNT) (hnone : ∀ s, ¬ FreeRun m s need) :
    allocate_contiguous m (need : Int) = (-1, m) := by
  have hBC : BLOCK_COUNT = 64 := rfl
  have hval : ¬ ((need : Int) ≤ 0 ∨ (BLOCK_COUNT : Int) < (need : Int)) := by
    rw [hBC] at h2 ⊢
    push_neg
    constructor <;> [exact_mod_cast h1; exact_mod_cast h2]
  rw [allocate_contiguous, if_neg hval]
  have htn : (need : Int).toNat = need := Int.toNat_natCast need
  rw [htn]
  rw [scanFrom_none m need (by omega) hnone BLOCK_COUNT 0 0 (-1)
    (by omega) (by omega) (by omega) (fun j hj1 hj2 => by omega)]

/-- Two bit-clearing writes commute. -/
lemma clearBlk_comm (m : Map) (a b : Nat) :
    clearBlk (clearBlk m a) b = clearBlk (clearBlk m b) a := by
  by_cases hby : a / BITS_IN_BYTE = b / BITS_IN_BYTE
  · by_cases hlen : a / BITS_IN_BYTE < m.length
    · have hlen' : b / BITS_IN_BYTE < m.length := hby ▸ hlen
      simp only [clearBlk, hby]
      rw [getD_set_self _ _ _ hlen', getD_set_self _ _ _ hlen',
        List.set_set, List.set_set]
      congr 1
      apply Nat.eq_of_testBit_eq
      intro k
      simp only [Nat.testBit_and]
      simp [Bool.and_comm, Bool.and_left_comm, Bool.and_assoc]
    · have hlen' : ¬ b / BITS_IN_BYTE < m.length := hby ▸ hlen
      push_neg at hlen hlen'
      have e1 : clearBlk m a = m := by
        simp only [clearBlk]; exact List.set_eq_of_length_le hlen
      have e2 : clearBlk m b = m := by
        simp only [clearBlk]; exact List.set_eq_of_length_le hlen'
      rw [e1, e2]
      exact e1.symm
  · simp only [clearBlk]
    rw [getD_set_ne _ _ _ _ hby, getD_set_ne _ _ _ _ (Ne.symm hby),
      List.set_comm _ _ _ (Ne.symm hby)]

/-- Clearing the same block twice equals clearing it once. -/
lemma clearBlk_idem (m : Map) (b : Nat) :
    clearBlk (clearBlk m b) b = clearBlk m b := by
  by_cases hlen : b / BITS_IN_BYTE < m.length
  · have hlen' : b / BITS_IN_BYTE < (clearBlk m b).length := by
      rw [length_clearBlk]; exact hlen
    simp only [clearBlk]
    rw [getD_set_self _ _ _ hlen, List.set_set]
    congr 1
    rw [Nat.land_assoc]
    congr 1
    apply Nat.eq_of_testBit_eq
    intro k
    simp [Nat.testBit_and]
  · push_neg at hlen
    have e : clearBlk m b = m := by
      simp only [clearBlk]; exact List.set_eq_of_length_le hlen
    rw [e, e]

/-- A bit-clearing write commutes past the whole clearing loop. -/
lemma clearBlk_free_comm (b : Nat) : ∀ (n : Nat) (m : Map) (s : Nat),
    clearBlk (free_contiguous m s n) b = free_contiguous (clearBlk m b) s n
  | 0, _, _ => rfl
  | n + 1, m, s => by
    rw [free_contiguous, free_contiguous, clearBlk_free_comm b n,
      clearBlk_comm]

/-- The clearing loop (free_contiguous) is idempotent. -/
lemma free_contiguous_idem : ∀ (n : Nat) (m : Map) (s : Nat),
    free_contiguous (free_contiguous m s n) s n = free_contiguous m s n
  | 0, _, _ => rfl
  | n + 1, m, s => by
    rw [free_contiguous, free_contiguous, clearBlk_free_comm,
      clearBlk_idem, free_contiguous_idem n]

/-- Clearing never turns a free block used. -/
lemma check_clearBlk_false (m : Map) (b i : Nat)
    (h : check_block_status m i = false) :
    check_block_status (clearBlk m b) i = false := by
  by_cases hib : i = b
  · rw [hib]; exact check_clearBlk_self m b
  · rw [check_clearBlk_other m b i hib]; exact h

/-- The clearing loop never turns a free block used. -/
lemma check_free_contiguous_false : ∀ (n : Nat) (m : Map) (s i : Nat),
    check_block_status m i = false →
    check_block_status (free_contiguous m s n) i = false
  | 0, _, _, _, h => h
  | n + 1, m, s, i, h => by
    rw [free_contiguous]
    exact check_free_contiguous_false n _ _ _ (check_clearBlk_false m s i h)

/-- Every block in the cleared extent is free afterwards. -/
lemma check_free_contiguous_in : ∀ (n : Nat) (m : Map) (s i : Nat),
    s ≤ i → i < s + n →
    check_block_status (free_contiguous m s n) i = false
  | 0, _, _, _, h1, h2 => by omega
  | n + 1, m, s, i, h1, h2 => by
    rw [free_contiguous]
    by_cases hi : i = s
    · exact check_free_contiguous_false n _ _ _
        (hi ▸ check_clearBlk_self m s)
    · exact check_free_contiguous_in n _ (s + 1) i (by omega) (by omega)

end Bitmap

namespace LinkedList

/-- MAX_BLOCKS from the C source. -/
def MAX_BLOCKS : Nat := 64

/-- NO_BLOCK sentinel from the C source. -/
def NO_BLOCK : Int := -1

/-- The global state: `BlockNode storage[MAX_BLOCKS]` and `free_start`.
Each node's `char info[30]` payload is semantically vestigial (never
read by the allocator), so a node is represented by its `nxt` link
alone; `nxt` is the list of the 64 `storage[i].nxt` fields. -/
structure Pool where
  nxt : List Int
  free_start : Int
deriving DecidableEq

/-- Reading `storage[b].nxt`.  All reads performed by the code use an
in-range non-sentinel `b`; the default is never reached there. -/
def nxtOf (p : Pool) (b : Int) : Int := p.nxt.getD b.toNat NO_BLOCK

/-- setup / initialize_linked_system: node `idx` points at `idx+1`,
the last node at NO_BLOCK, and `free_start = 0`. -/
def setup : Pool :=
  { nxt := (List.range MAX_BLOCKS).map
      (fun idx => if idx < MAX_BLOCKS - 1 then ((idx : Int) + 1) else NO_BLOCK),
    free_start := 0 }

/-- get_one_block / grab_one_free_block: pop the head of the free list
(LIFO), detach it (its `nxt` becomes NO_BLOCK), return its index, or
NO_BLOCK when the free list is empty. -/
def get_one_block (p : Pool) : Int × Pool :=
  if p.free_start = NO_BLOCK then (NO_BLOCK, p)
  else
    (p.free_start,
     { nxt := p.nxt.set p.free_start.toNat NO_BLOCK,
       free_start := nxtOf p p.free_start })

/-- The partial-failure rollback loop of get_blocks: walk the chain
from `first`, pushing every node onto the front of the free list.
`fuel` bounds the walk; it is always called with MAX_BLOCKS, which is
at least the length of any chain of distinct pool nodes. -/
def rollback : Nat → Int → Pool → Pool
  | 0, _, p => p
  | fuel + 1, first, p =>
    if first = NO_BLOCK then p
    else
      let nx := nxtOf p first
      rollback fuel nx { nxt := p.nxt.set first.toNat p.free_start, free_start := first }

/-- The main loop of get_blocks: `n` iterations remain; `first` is the
head of the chain built so far and `prev` its tail (both NO_BLOCK when
the chain is still empty).  On exhaustion the already-taken blocks are
rolled back onto the free list and NO_BLOCK is returned. -/
def get_blocks_loop : Nat → Int → Int → Pool → Int × Pool
  | 0, first, _, p => (first, p)
  | n + 1, first, prev, p =>
    let (newb, p1) := get_one_block p
    if newb = NO_BLOCK then
      (NO_BLOCK, rollback MAX_BLOCKS first p1)
    else
      let first' := if prev ≠ NO_BLOCK then first else newb
      let p2 := if prev ≠ NO_BLOCK then
          { p1 with nxt := p1.nxt.set prev.toNat newb } else p1
      get_blocks_loop n first' newb p2

/-- get_blocks / allocate_file_blocks: validates `num <= 0`, then runs
the single-block primitive `num` times threading the new blocks into a
chain. -/
def get_blocks (p : Pool) (num : Int) : Int × Pool :=
  if num ≤ 0 then (NO_BLOCK, p)
  else get_blocks_loop num.toNat NO_BLOCK NO_BLOCK p

/-- The tail-finding loop of release_blocks / free_up_file_blocks:
`while (storage[cur].nxt != NO_BLOCK) { last = cur; cur = storage[cur].nxt; }`
returning `last`.  Note that the C loop updates `last` before
advancing `cur` and never after the loop, so for chains of two or more
nodes the returned `last` is the second-to-last node, not the tail. -/
def find_last : Nat → Pool → Int → Int → Int
  | 0, _, _, last => last
  | fuel + 1, p, cur, last =>
    if nxtOf p cur ≠ NO_BLOCK then find_last fuel p (nxtOf p cur) cur
    else last

/-- release_blocks / free_up_file_blocks: no-op on the sentinel,
otherwise finds `last` with the loop above, splices via
`storage[last].nxt = free_start; free_start = begin`. -/
def release_blocks (p : Pool) (begin : Int) : Pool :=
  if begin = NO_BLOCK then p
  else
    let last := find_last MAX_BLOCKS p begin begin
    { nxt := p.nxt.set last.toNat p.free_start, free_start := begin }

/-- The chain predicate: the pointer structure of `p` threads exactly
the blocks of `l`, in order, from head `h` down to the NO_BLOCK
sentinel.  Applied to `p.free_start` it says `l` is the free list. -/
def chain (p : Pool) : List Nat → Int → Bool
  | [], h => decide (h = NO_BLOCK)
  | x :: xs, h => decide (h = (x : Int)) && chain p xs (nxtOf p (x : Int))

/-- The free-list walk used by display_state / show_linked_list_state
to recover block status: collect the members of the free list. -/
def freeListAcc : Nat → Pool → Int → List Int
  | 0, _, _ => []
  | fuel + 1, p, cur =>
    if cur = NO_BLOCK then [] else cur :: freeListAcc fuel p (nxtOf p cur)

/-- Block status in the linked-list representation, as computed by the
display routines of the C sources: a block is free exactly when it is
a member of the free list. -/
def blockIsFree (p : Pool) (b : Nat) : Bool :=
  (b : Int) ∈ freeListAcc MAX_BLOCKS p p.free_start

/-- Head of an index list as an `Int` handle (NO_BLOCK when empty). -/
def headInt : List Nat → Int
  | [] => NO_BLOCK
  | x :: _ => (x : Int)

/-- Last element of an index list as an `Int` handle (NO_BLOCK when
empty). -/
def lastInt (l : List Nat) : Int := headInt l.reverse

lemma int_natCast_ne_noblock (x : Nat) : ((x : Int)) ≠ NO_BLOCK := by
  simp only [NO_BLOCK]
  omega

lemma getD_set_self_int (l : List Int) (i : Nat) (a : Int) (h : i < l.length) :
    (l.set i a).getD i NO_BLOCK = a := by
  simp [List.getD_eq_getElem?_getD, List.getElem?_set_self, h]

lemma getD_set_ne_int (l : List Int) (i j : Nat) (a : Int) (h : i ≠ j) :
    (l.set i a).getD j NO_BLOCK = l.getD j NO_BLOCK := by
  simp [List.getD_eq_getElem?_getD, List.getElem?_set_ne h]

lemma nxtOf_set_self (nx : List Int) (fs : Int) (x : Nat) (v : Int)
    (h : x < nx.length) :
    nxtOf { nxt := nx.set x v, free_start := fs } (x : Int) = v := by
  simp only [nxtOf, Int.toNat_natCast]
  exact getD_set_self_int nx x v h

lemma nxtOf_set_ne (nx : List Int) (fs fs' : Int) (x y : Nat) (v : Int)
    (h : x ≠ y) :
    nxtOf { nxt := nx.set x v, free_start := fs } (y : Int) =
      nxtOf { nxt := nx, free_start := fs' } (y : Int) := by
  simp only [nxtOf, Int.toNat_natCast]
  exact getD_set_ne_int nx x y v h

/-- A chain determines its own head. -/
lemma chain_head (p : Pool) (l : List Nat) (h : Int)
    (hch : chain p l h = true) : h = headInt l := by
  cases l with
  | nil => simpa [chain, headInt] using hch
  | cons x xs =>
    simp only [chain, Bool.and_eq_true, decide_eq_true_eq] at hch
    simpa [headInt] using hch.1

/-- The chain predicate only reads the `nxt` fields of its members. -/
lemma chain_congr (p q : Pool) : ∀ (l : List Nat) (h : Int),
    (∀ x ∈ l, nxtOf q (x : Int) = nxtOf p (x : Int)) →
    chain p l h = true → chain q l h = true
  | [], h, _, hch => hch
  | x :: xs, h, hsame, hch => by
    simp only [chain, Bool.and_eq_true, decide_eq_true_eq] at hch ⊢
    refine ⟨hch.1, ?_⟩
    rw [hsame x (by simp)]
    exact chain_congr p q xs _ (fun z hz => hsame z (by simp [hz])) hch.2

/-- Extending a chain by one node at its tail. -/
lemma chain_snoc (p q : Pool) : ∀ (c : List Nat) (z y : Nat) (hd : Int),
    chain p (c ++ [z]) hd = true →
    z ∉ c →
    (∀ x ∈ c, nxtOf q (x : Int) = nxtOf p (x : Int)) →
    nxtOf q (z : Int) = (y : Int) →
    nxtOf q (y : Int) = NO_BLOCK →
    chain q ((c ++ [z]) ++ [y]) hd = true
  | [], z, y, hd, hch, _, _, hz, hy => by
    simp only [List.nil_append, chain, Bool.and_eq_true, decide_eq_true_eq] at hch ⊢
    exact ⟨hch.1, hz, hy⟩
  | x :: c, z, y, hd, hch, hznot, hsame, hz, hy => by
    simp only [List.cons_append, chain, Bool.and_eq_true,
      decide_eq_true_eq] at hch ⊢
    refine ⟨hch.1, ?_⟩
    rw [hsame x (by simp)]
    exact chain_snoc p q c z y _ hch.2 (fun hc => hznot (by simp [hc]))
      (fun w hw => hsame w (by simp [hw])) hz hy

lemma headInt_append (c d : List Nat) (h : c ≠ []) :
    headInt (c ++ d) = headInt c := by
  cases c with
  | nil => exact absurd rfl h
  | cons x xs => rfl

lemma lastInt_concat (c : List Nat) (y : Nat) :
    lastInt (c ++ [y]) = (y : Int) := by
  simp [lastInt, headInt]

/-- Popping the head of a non-empty free list. -/
lemma get_one_block_eq (p : Pool) (y : Nat) (hfs : p.free_start = (y : Int)) :
    get_one_block p =
      ((y : Int), { nxt := p.nxt.set y NO_BLOCK,
                    free_start := nxtOf p (y : Int) }) := by
  rw [get_one_block, if_neg (by rw [hfs]; exact int_natCast_ne_noblock y)]
  rw [hfs]
  simp [Int.toNat_natCast]

/-- One successful iteration of the get_blocks loop: pop `y` off the
free list and thread it onto the tail of the chain built so far. -/
lemma step_invariant (c : List Nat) (y : Nat) (ys : List Nat) (p : Pool)
    (hlen : p.nxt.length = MAX_BLOCKS)
    (hnd : (c ++ y :: ys).Nodup)
    (hb : ∀ x ∈ c ++ y :: ys, x < MAX_BLOCKS)
    (hc : chain p c (headInt c) = true)
    (hl : chain p (y :: ys) p.free_start = true) :
    ∃ p2 : Pool,
      (∀ n : Nat, get_blocks_loop (n + 1) (headInt c) (lastInt c) p =
          get_blocks_loop n (headInt (c ++ [y])) (lastInt (c ++ [y])) p2) ∧
      p2.nxt.length = MAX_BLOCKS ∧
      chain p2 (c ++ [y]) (headInt (c ++ [y])) = true ∧
      chain p2 ys p2.free_start = true := by
  have hfs : p.free_start = (y : Int) := by
    have := chain_head p (y :: ys) p.free_start hl
    simpa [headInt] using this
  have hys : chain p ys (nxtOf p (y : Int)) = true := by
    simp only [chain, Bool.and_eq_true, decide_eq_true_eq] at hl
    exact hl.2
  have hylt : y < MAX_BLOCKS := hb y (by simp)
  have hylen : y < p.nxt.length := by rw [hlen]; exact hylt
  have hnds := List.nodup_append.1 hnd
  have hyc : y ∉ c := fun hy => hnds.2.2 hy (by simp)
  have hyys : y ∉ ys := by
    have := hnds.2.1
    simp only [List.nodup_cons] at this
    exact this.1
  have hpop := get_one_block_eq p y hfs
  rcases List.eq_nil_or_concat c with rfl | ⟨c0, z, hcz⟩
  · refine ⟨⟨p.nxt.set y NO_BLOCK, nxtOf p (y : Int)⟩,
      fun n => ?_, by simpa using hlen, ?_, ?_⟩
    · rw [get_blocks_loop, hpop]
      simp only [headInt, lastInt, List.reverse_nil, List.nil_append,
        List.reverse_cons, List.reverse_singleton]
      rw [if_neg (by exact fun h => int_natCast_ne_noblock y h)]
      simp [headInt]
    · have hself : nxtOf (⟨p.nxt.set y NO_BLOCK, nxtOf p (y : Int)⟩ : Pool)
          (y : Int) = NO_BLOCK :=
        nxtOf_set_self p.nxt _ y NO_BLOCK hylen
      simp [headInt, chain, hself]
    · refine chain_congr p _ ys _ (fun x hx => ?_) hys
      exact nxtOf_set_ne p.nxt _ p.free_start y x NO_BLOCK
        (fun h => hyys (h ▸ hx))
  · rw [List.concat_eq_append] at hcz
    subst hcz
    have hzc : z ∈ c0 ++ [z] := by simp
    have hzlt : z < MAX_BLOCKS := hb z (by simp)
    have hzy : z ≠ y := fun h => hyc (h ▸ hzc)
    have hznc0 : z ∉ c0 := by
      have := hnds.1
      simp only [List.nodup_append, List.nodup_cons] at this
      exact fun hz => this.2.2 hz (by simp)
    have hc0y : ∀ x ∈ c0, x ≠ y := fun x hx h =>
      hyc (h ▸ (by simp [hx] : x ∈ c0 ++ [z]))
    have hzlen : z < (p.nxt.set y NO_BLOCK).length := by
      simpa [hlen] using hzlt
    refine ⟨⟨(p.nxt.set y NO_BLOCK).set z (y : Int), nxtOf p (y : Int)⟩,
      fun n => ?_, by simpa using hlen, ?_, ?_⟩
    · rw [get_blocks_loop, hpop]
      have hyn : ¬ ((y : Int) = NO_BLOCK) := int_natCast_ne_noblock y
      have hzn : ((z : Int)) ≠ NO_BLOCK := int_natCast_ne_noblock z
      simp only [lastInt_concat, if_neg hyn, if_pos hzn, Int.toNat_natCast]
      rw [headInt_append _ [y] (by simp)]
    · rw [headInt_append _ [y] (by simp)]
      refine chain_snoc p _ c0 z y (headInt (c0 ++ [z])) hc hznc0
        (fun x hx => ?_) ?_ ?_
      · have hxz : z ≠ x := fun h => hznc0 (h ▸ hx)
        have hxy : y ≠ x := fun h => (hc0y x hx) h.symm
        rw [nxtOf_set_ne (p.nxt.set y NO_BLOCK) _ p.free_start z x (y : Int) hxz]
        exact nxtOf_set_ne p.nxt p.free_start p.free_start y x NO_BLOCK hxy
      · exact nxtOf_set_self (p.nxt.set y NO_BLOCK) _ z (y : Int) hzlen
      · rw [nxtOf_set_ne (p.nxt.set y NO_BLOCK) _ p.free_start z y (y : Int) hzy]
        exact nxtOf_set_self p.nxt p.free_start y NO_BLOCK hylen
    · refine chain_congr p _ ys _ (fun x hx => ?_) hys
      have hxz : z ≠ x := by
        intro h
        exact hnds.2.2 hzc (by simp [h ▸ hx])
      have hxy : y ≠ x := fun h => hyys (h ▸ hx)
      rw [nxtOf_set_ne (p.nxt.set y NO_BLOCK) _ p.free_start z x (y : Int) hxz]
      exact nxtOf_set_ne p.nxt p.free_start p.free_start y x NO_BLOCK hxy

/-- A duplicate-free list of block indices has at most MAX_BLOCKS
elements. -/
lemma length_le_of_nodup_bounded (l : List Nat) (hn : l.Nodup)
    (hb : ∀ x ∈ l, x < MAX_BLOCKS) : l.length ≤ MAX_BLOCKS := by
  classical
  have h1 : l.toFinset.card = l.length := List.toFinset_card_of_nodup hn
  have h2 : l.toFinset ⊆ Finset.range MAX_BLOCKS := by
    intro x hx
    simp only [List.mem_toFinset] at hx
    exact Finset.mem_range.2 (hb x hx)
  have := Finset.card_le_card h2
  simpa [h1] using this

/-- The rollback loop pushes the whole chain `c`, front first, onto the
free list `f`, producing the free list `c.reverse ++ f`. -/
lemma rollback_spec : ∀ (c : List Nat) (fuel : Nat) (f : List Nat) (p : Pool),
    c.length ≤ fuel →
    p.nxt.length = MAX_BLOCKS →
    (c ++ f).Nodup →
    (∀ x ∈ c ++ f, x < MAX_BLOCKS) →
    chain p c (headInt c) = true →
    chain p f p.free_start = true →
    ∃ q : Pool,
      rollback fuel (headInt c) p = q ∧
      q.nxt.length = MAX_BLOCKS ∧
      chain q (c.reverse ++ f) q.free_start = true
  | [], fuel, f, p, _, hlen, _, _, _, hf => by
    refine ⟨p, ?_, hlen, by simpa using hf⟩
    cases fuel with
    | zero => rfl
    | succ fu => simp [rollback, headInt]
  | x :: xs, fuel, f, p, hfuel, hlen, hnd, hb, hc, hf => by
    cases fuel with
    | zero => simp at hfuel
    | succ fu =>
      have hxlt : x < MAX_BLOCKS := hb x (by simp)
      have hxlen : x < p.nxt.length := by rw [hlen]; exact hxlt
      have hnds : (x :: (xs ++ f)).Nodup := hnd
      have hxnotin : x ∉ xs ++ f := (List.nodup_cons.1 hnds).1
      have hxxs : x ∉ xs := fun h => hxnotin (by simp [h])
      have hxf : x ∉ f := fun h => hxnotin (by simp [h])
      have hxs : chain p xs (nxtOf p (x : Int)) = true := by
        simp only [chain, Bool.and_eq_true, decide_eq_true_eq] at hc
        exact hc.2
      have hnx : nxtOf p (x : Int) = headInt xs := chain_head p xs _ hxs
      obtain ⟨q, hq, hqlen, hqchain⟩ :=
        rollback_spec xs fu (x :: f) (⟨p.nxt.set x p.free_start, (x : Int)⟩ : Pool)
          (by simpa using hfuel)
          (by simpa using hlen)
          (List.perm_middle.nodup_iff.2 hnds)
          (by
            intro w hw
            refine hb w ?_
            rcases List.mem_append.1 hw with h | h
            · exact List.mem_append.2 (Or.inl (by simp [h]))
            · rcases List.mem_cons.1 h with rfl | h
              · simp
              · exact List.mem_append.2 (Or.inr h))
          (by
            rw [← hnx]
            refine chain_congr p _ xs _ (fun w hw => ?_) ?_
            · exact nxtOf_set_ne p.nxt p.free_start p.free_start x w
                p.free_start (fun h => hxxs (h ▸ hw))
            · rw [hnx] at hxs
              rw [hnx]
              exact hxs)
          (by
            have hself : nxtOf (⟨p.nxt.set x p.free_start, (x : Int)⟩ : Pool)
                (x : Int) = p.free_start :=
              nxtOf_set_self p.nxt _ x p.free_start hxlen
            simp only [chain, Bool.and_eq_true, decide_eq_true_eq]
            refine ⟨by trivial, ?_⟩
            rw [hself]
            refine chain_congr p _ f _ (fun w hw => ?_) hf
            exact nxtOf_set_ne p.nxt p.free_start p.free_start x w
              p.free_start (fun h => hxf (h ▸ hw)))
      refine ⟨q, ?_, hqlen, ?_⟩
      · rw [rollback]
        rw [if_neg (by simp [headInt]; exact int_natCast_ne_noblock x)]
        simp only [headInt]
        have ht : ((x : Int)).toNat = x := Int.toNat_natCast x
        rw [ht, hnx] at *
        convert hq using 2
      · have hlist : xs.reverse ++ (x :: f) = (x :: xs).reverse ++ f := by
          simp
        rw [← hlist]
        exact hqchain

/-- Main loop lemma, success path: with at least `n` blocks on the
free list, the loop pops exactly the first `n` of them and threads
them, in pop order, onto the tail of the chain `c`. -/
lemma get_blocks_loop_ok : ∀ (n : Nat) (c l : List Nat) (p : Pool),
    p.nxt.length = MAX_BLOCKS →
    (c ++ l).Nodup →
    (∀ x ∈ c ++ l, x < MAX_BLOCKS) →
    chain p c (headInt c) = true →
    chain p l p.free_start = true →
    n ≤ l.length →
    ∃ q : Pool,
      get_blocks_loop n (headInt c) (lastInt c) p =
        (headInt (c ++ l.take n), q) ∧
      q.nxt.length = MAX_BLOCKS ∧
      chain q (c ++ l.take n) (headInt (c ++ l.take n)) = true ∧
      chain q (l.drop n) q.free_start = true
  | 0, c, l, p, hlen, _, _, hc, hl, _ => by
    refine ⟨p, ?_, hlen, ?_, ?_⟩
    · simp [get_blocks_loop]
    · simpa using hc
    · simpa using hl
  | n + 1, c, l, p, hlen, hnd, hb, hc, hl, hn => by
    cases l with
    | nil => simp at hn
    | cons y ys =>
      obtain ⟨p2, hstep, hlen2, hc2, hl2⟩ :=
        step_invariant c y ys p hlen hnd hb hc hl
      have hassoc : c ++ [y] ++ ys = c ++ y :: ys := by simp
      obtain ⟨q, hq, hqlen, hqc, hql⟩ :=
        get_blocks_loop_ok n (c ++ [y]) ys p2 hlen2
          (by rw [hassoc]; exact hnd)
          (by intro x hx; refine hb x ?_; rw [← hassoc]; exact hx)
          hc2 hl2 (by simpa using hn)
      have hlist : c ++ [y] ++ ys.take n = c ++ (y :: ys).take (n + 1) := by
        simp
      refine ⟨q, ?_, hqlen, ?_, ?_⟩
      · rw [hstep n, hq, hlist]
      · rw [← hlist]; exact hqc
      · simpa using hql

/-- Main loop lemma, failure path: with fewer than `n` blocks on the
free list, the loop drains the free list, rolls the partial chain
back, and returns NO_BLOCK; the resulting free list is the reversal of
chain-so-far plus old free list. -/
lemma get_blocks_loop_exhaust : ∀ (l : List Nat) (n : Nat) (c : List Nat) (p : Pool),
    p.nxt.length = MAX_BLOCKS →
    (c ++ l).Nodup →
    (∀ x ∈ c ++ l, x < MAX_BLOCKS) →
    chain p c (headInt c) = true →
    chain p l p.free_start = true →
    l.length < n →
    ∃ q : Pool,
      get_blocks_loop n (headInt c) (lastInt c) p = (NO_BLOCK, q) ∧
      q.nxt.length = MAX_BLOCKS ∧
      chain q ((c ++ l).reverse) q.free_start = true
  | [], n, c, p, hlen, hnd, hb, hc, hl, hn => by
    cases n with
    | zero => simp at hn
    | succ k =>
      have hfs : p.free_start = NO_BLOCK := by
        simpa [chain] using hl
      have hclen : c.length ≤ MAX_BLOCKS := by
        refine length_le_of_nodup_bounded c ?_ ?_
        · simpa using hnd
        · intro x hx; exact hb x (by simp [hx])
      obtain ⟨q, hq, hqlen, hqchain⟩ :=
        rollback_spec c MAX_BLOCKS [] p hclen hlen (by simpa using hnd)
          (by intro x hx; exact hb x (by simpa using hx)) hc
          (by simp [chain, hfs])
      refine ⟨q, ?_, hqlen, by simpa using hqchain⟩
      rw [get_blocks_loop]
      rw [get_one_block, if_pos hfs]
      simp only [if_pos rfl]
      rw [hq]
      simp
  | y :: ys, n, c, p, hlen, hnd, hb, hc, hl, hn => by
    cases n with
    | zero => simp at hn
    | succ k =>
      obtain ⟨p2, hstep, hlen2, hc2, hl2⟩ :=
        step_invariant c y ys p hlen hnd hb hc hl
      have hassoc : c ++ [y] ++ ys = c ++ y :: ys := by simp
      obtain ⟨q, hq, hqlen, hqchain⟩ :=
        get_blocks_loop_exhaust ys k (c ++ [y]) p2 hlen2
          (by rw [hassoc]; exact hnd)
          (by intro x hx; refine hb x ?_; rw [← hassoc]; exact hx)
          hc2 hl2 (by simpa using hn)
      refine ⟨q, ?_, hqlen, ?_⟩
      · rw [hstep k, hq]
      · rw [← hassoc]
        exact hqchain

/-- get_blocks on a well-formed pool with enough free blocks: returns
the old free-list head; the allocated chain is the popped front of the
free list, in pop order; the new free list is the remainder. -/
lemma get_blocks_ok (p : Pool) (l : List Nat) (num : Nat)
    (hlen : p.nxt.length = MAX_BLOCKS) (hnd : l.Nodup)
    (hb : ∀ x ∈ l, x < MAX_BLOCKS)
    (hl : chain p l p.free_start = true)
    (h1 : 1 ≤ num) (h2 : num ≤ l.length) :
    ∃ q : Pool,
      get_blocks p (num : Int) = (headInt (l.take num), q) ∧
      headInt (l.take num) = p.free_start ∧
      q.nxt.length = MAX_BLOCKS ∧
      chain q (l.take num) (headInt (l.take num)) = true ∧
      chain q (l.drop num) q.free_start = true := by
  obtain ⟨q, hq, hqlen, hqc, hql⟩ :=
    get_blocks_loop_ok num [] l p hlen (by simpa using hnd)
      (by simpa using hb) (by simp [chain, headInt]) hl h2
  refine ⟨q, ?_, ?_, hqlen, by simpa using hqc, hql⟩
  · rw [get_blocks, if_neg (by exact_mod_cast by omega : ¬ ((num : Int) ≤ 0))]
    rw [Int.toNat_natCast]
    simpa [headInt, lastInt] using hq
  · cases l with
    | nil => simp at h2; omega
    | cons x xs =>
      have := chain_head p (x :: xs) p.free_start hl
      cases num with
      | zero => omega
      | succ k => simp [headInt, List.take_succ_cons, this]

/-- get_blocks on a well-formed pool with too few free blocks: drains
and rolls back, returning NO_BLOCK; the free list ends up reversed but
with exactly the same members. -/
lemma get_blocks_fail (p : Pool) (l : List Nat) (num : Nat)
    (hlen : p.nxt.length = MAX_BLOCKS) (hnd : l.Nodup)
    (hb : ∀ x ∈ l, x < MAX_BLOCKS)
    (hl : chain p l p.free_start = true)
    (h2 : l.length < num) :
    ∃ q : Pool,
      get_blocks p (num : Int) = (NO_BLOCK, q) ∧
      q.nxt.length = MAX_BLOCKS ∧
      chain q l.reverse q.free_start = true := by
  obtain ⟨q, hq, hqlen, hqchain⟩ :=
    get_blocks_loop_exhaust l num [] p hlen (by simpa using hnd)
      (by simpa using hb) (by simp [chain, headInt]) hl h2
  refine ⟨q, ?_, hqlen, by simpa using hqchain⟩
  rw [get_blocks, if_neg (by exact_mod_cast by omega : ¬ ((num : Int) ≤ 0))]
  rw [Int.toNat_natCast]
  simpa [headInt, lastInt] using hq

/-- The display-routine walk recovers exactly the abstract free list. -/
lemma freeListAcc_eq : ∀ (l : List Nat) (fuel : Nat) (h : Int) (p : Pool),
    chain p l h = true → l.length ≤ fuel →
    freeListAcc fuel p h = l.map (fun x => (x : Int))
  | [], fuel, h, p, hch, _ => by
    have hh : h = NO_BLOCK := by simpa [chain] using hch
    cases fuel <;> simp [freeListAcc, hh]
  | x :: xs, fuel, h, p, hch, hfl => by
    cases fuel with
    | zero => simp at hfl
    | succ fu =>
      simp only [chain, Bool.and_eq_true, decide_eq_true_eq] at hch
      obtain ⟨rfl, hxs⟩ := hch
      rw [freeListAcc, if_neg (int_natCast_ne_noblock x)]
      rw [freeListAcc_eq xs fu _ p hxs (by simpa using hfl)]
      simp

/-- On a well-formed pool, a block is reported free exactly when it is
a member of the abstract free list. -/
lemma blockIsFree_iff (p : Pool) (l : List Nat) (b : Nat)
    (hnd : l.Nodup) (hb : ∀ x ∈ l, x < MAX_BLOCKS)
    (hl : chain p l p.free_start = true) :
    blockIsFree p b = decide (b ∈ l) := by
  have hfl : l.length ≤ MAX_BLOCKS := length_le_of_nodup_bounded l hnd hb
  simp only [blockIsFree]
  rw [freeListAcc_eq l MAX_BLOCKS _ p hl hfl]
  simp [List.mem_map]

end LinkedList

namespace Equiv

open Bitmap LinkedList

/-- A request of the common allocator contract: allocate `need`
contiguous blocks, or release the extent obtained by the request at
position `idx` of the sequence (as the C test drivers do, a release of
a failed or absent allocation is skipped). -/
inductive Request where
  | alloc (need : Int)
  | release (idx : Nat)
deriving DecidableEq

/-- Whether a request is an allocation. -/
def isAlloc : Request → Bool
  | .alloc _ => true
  | .release _ => false

/-- Drive the bitmap allocator over a request sequence, recording per
request the observable success/failure outcome (releases, which return
no value in the C API, record `true`).  `tbl` keeps each allocation's
(start, size) so a release can name it, exactly as the C test drivers
keep `allocs[]`/`sizes[]` and guard `if (allocs[i] != -1)`. -/
def runBitmap : Map → List (Int × Int) → List Request → List Bool
  | _, _, [] => []
  | m, tbl, .alloc n :: rs =>
    let r := allocate_contiguous m n
    decide (r.1 ≠ -1) :: runBitmap r.2 (tbl ++ [(r.1, n)]) rs
  | m, tbl, .release i :: rs =>
    let e := tbl.getD i (-1, 0)
    if e.1 ≠ -1 then
      true :: runBitmap (free_contiguous m e.1.toNat e.2.toNat) tbl rs
    else true :: runBitmap m tbl rs

/-- Drive the linked-list allocator over the same request sequence,
recording the same observable outcomes; `tbl` keeps the chain handles
(release_blocks itself no-ops on the NO_BLOCK sentinel). -/
def runList : Pool → List Int → List Request → List Bool
  | _, _, [] => []
  | p, tbl, .alloc n :: rs =>
    let r := get_blocks p n
    decide (r.1 ≠ NO_BLOCK) :: runList r.2 (tbl ++ [r.1]) rs
  | p, tbl, .release i :: rs =>
    true :: runList (release_blocks p (tbl.getD i NO_BLOCK)) tbl rs

end Equiv




namespace Bitmap

/-- When every block is used there is no free run at all. -/
lemma no_run_of_all_used (m : Map) (need : Nat) (hneed : 1 ≤ need)
    (h : ∀ i, i < BLOCK_COUNT → check_block_status m i = true) :
    ∀ s, ¬ FreeRun m s need := by
  intro s hr
  have hs : s < BLOCK_COUNT := by
    have := hr.1
    unfold BLOCK_COUNT at *
    omega
  have h2 := hr.2 0 (by omega)
  rw [Nat.add_zero] at h2
  rw [h s hs] at h2
  simp at h2

end Bitmap

/-- C1: bitmap allocate is first-fit: for every pool state and every
need with 1 ≤ need ≤ capacity, if index `start` begins a free run of
`need` blocks and no lower index does, then allocate(need) returns
`start`, marks exactly the blocks [start, start+need) used, and leaves
every other block's status unchanged. -/
theorem C1_bitmap_first_fit (m : Bitmap.Map) (need start : Nat)
    (hlen : m.length = Bitmap.MAP_SIZE)
    (h1 : 1 ≤ need) (h2 : need ≤ Bitmap.BLOCK_COUNT)
    (hrun : Bitmap.FreeRun m start need)
    (hlow : ∀ t, t < start → ¬ Bitmap.FreeRun m t need) :
    (Bitmap.allocate_contiguous m (need : Int)).1 = (start : Int) ∧
    ∀ i, i < Bitmap.BLOCK_COUNT →
      Bitmap.check_block_status (Bitmap.allocate_contiguous m (need : Int)).2 i =
        (if start ≤ i ∧ i < start + need then true
         else Bitmap.check_block_status m i) := by
  rw [Bitmap.allocate_pos m need start h1 h2 hrun hlow]
  exact ⟨rfl, fun i _ => Bitmap.check_markRun need m start hlen hrun.1 i⟩

/-- Witness for C1: with block 0 used and need 2, allocation lands at
block 1 and block 1 is then used. -/
theorem C1_bitmap_first_fit_witness :
    (Bitmap.allocate_contiguous [1, 0, 0, 0, 0, 0, 0, 0] ((2 : Nat) : Int)).1 =
      ((1 : Nat) : Int) ∧
    Bitmap.check_block_status
      (Bitmap.allocate_contiguous [1, 0, 0, 0, 0, 0, 0, 0] ((2 : Nat) : Int)).2 1 =
      true := by
  have h := C1_bitmap_first_fit [1, 0, 0, 0, 0, 0, 0, 0] 2 1 rfl
    (by norm_num) (by decide) (by decide)
    (fun t ht => by interval_cases t; decide)
  refine ⟨h.1, ?_⟩
  rw [h.2 1 (by decide)]
  norm_num

/-- C3: all-or-nothing allocation: a bitmap allocation that fails with
OutOfSpace (valid need, no fitting run) leaves the map untouched, and
a linked-list allocation that fails with OutOfSpace (more blocks asked
than the free list holds) leaves every block's free/used status as it
was. -/
theorem C3_all_or_nothing :
    (∀ (m : Bitmap.Map) (need : Nat), 1 ≤ need → need ≤ Bitmap.BLOCK_COUNT →
      (∀ s, ¬ Bitmap.FreeRun m s need) →
      Bitmap.allocate_contiguous m (need : Int) = (-1, m)) ∧
    (∀ (p : LinkedList.Pool) (l : List Nat) (num : Nat),
      p.nxt.length = LinkedList.MAX_BLOCKS → l.Nodup →
      (∀ x ∈ l, x < LinkedList.MAX_BLOCKS) →
      LinkedList.chain p l p.free_start = true →
      l.length < num →
      (LinkedList.get_blocks p (num : Int)).1 = LinkedList.NO_BLOCK ∧
      ∀ b : Nat,
        LinkedList.blockIsFree (LinkedList.get_blocks p (num : Int)).2 b =
          LinkedList.blockIsFree p b) := by
  constructor
  · exact fun m need h1 h2 h => Bitmap.allocate_fail m need h1 h2 h
  · intro p l num hlen hnd hb hl h2
    obtain ⟨q, hq, hqlen, hqchain⟩ :=
      LinkedList.get_blocks_fail p l num hlen hnd hb hl h2
    rw [hq]
    refine ⟨rfl, fun b => ?_⟩
    rw [LinkedList.blockIsFree_iff q l.reverse b (by simpa using hnd)
      (by intro x hx; exact hb x (by simpa using hx)) hqchain]
    rw [LinkedList.blockIsFree_iff p l b hnd hb hl]
    simp

/-- Witness for C3: a full bitmap rejects a 1-block request without
touching the map, and a drained linked-list pool rejects a 1-block
request leaving block 5 (and every block) still used. -/
theorem C3_all_or_nothing_witness :
    Bitmap.allocate_contiguous (List.replicate 8 255) ((1 : Nat) : Int) =
      (-1, List.replicate 8 255) ∧
    (LinkedList.get_blocks
        (⟨LinkedList.setup.nxt, LinkedList.NO_BLOCK⟩ : LinkedList.Pool)
        ((1 : Nat) : Int)).1 = LinkedList.NO_BLOCK ∧
    LinkedList.blockIsFree
      (LinkedList.get_blocks
        (⟨LinkedList.setup.nxt, LinkedList.NO_BLOCK⟩ : LinkedList.Pool)
        ((1 : Nat) : Int)).2 5 =
      LinkedList.blockIsFree
        (⟨LinkedList.setup.nxt, LinkedList.NO_BLOCK⟩ : LinkedList.Pool) 5 := by
  have hbm := C3_all_or_nothing.1 (List.replicate 8 255) 1 (by norm_num)
    (by decide)
    (Bitmap.no_run_of_all_used (List.replicate 8 255) 1 (by norm_num) (by decide))
  have hll := C3_all_or_nothing.2
    (⟨LinkedList.setup.nxt, LinkedList.NO_BLOCK⟩ : LinkedList.Pool) [] 1
    (by decide) (by decide) (by decide) (by decide) (by norm_num)
  exact ⟨hbm, hll.1, hll.2 5⟩

/-- C5 counterexample: in the spec scenario (capacity 64, fully free;
allocate(12), then allocate(5), then free(0,12)) the final allocate(20)
does not return 0: the 5-block allocation still occupies blocks 12-16,
so the run at 0 is only 12 blocks long. -/
theorem C5_counterexample :
    (Bitmap.allocate_contiguous
      (Bitmap.free_contiguous
        (Bitmap.allocate_contiguous
          (Bitmap.allocate_contiguous Bitmap.map_init 12).2 5).2 0 12)
      20).1 ≠ 0 := by decide

/-- C5 amended: capacity 64, start fully free: allocate(12) returns 0,
allocate(5) returns 12, and after free(0,12) the call allocate(20)
returns 17, the first index of the first free run of length 20 (the
run at 0 has only 12 blocks because blocks 12-16 are still used). -/
theorem C5_amended_scenario :
    (Bitmap.allocate_contiguous Bitmap.map_init 12).1 = 0 ∧
    (Bitmap.allocate_contiguous
      (Bitmap.allocate_contiguous Bitmap.map_init 12).2 5).1 = 12 ∧
    (Bitmap.allocate_contiguous
      (Bitmap.free_contiguous
        (Bitmap.allocate_contiguous
          (Bitmap.allocate_contiguous Bitmap.map_init 12).2 5).2 0 12)
      20).1 = 17 := by decide

/-- C6: exhaustion boundary in both representations: on a freshly
reset pool allocate(64) succeeds returning handle 0, and a subsequent
allocate(1) fails. -/
theorem C6_exhaustion_boundary :
    (Bitmap.allocate_contiguous Bitmap.map_init 64).1 = 0 ∧
    (Bitmap.allocate_contiguous
      (Bitmap.allocate_contiguous Bitmap.map_init 64).2 1).1 = -1 ∧
    (LinkedList.get_blocks LinkedList.setup 64).1 = 0 ∧
    (LinkedList.get_blocks
      (LinkedList.get_blocks LinkedList.setup 64).2 1).1 =
      LinkedList.NO_BLOCK := by decide

/-- C7: request validation: the bitmap allocator rejects need ≤ 0 and
need > capacity outright with no state change; the linked-list
allocator rejects only need ≤ 0 outright, and has no upper-bound
check: asked for 65 > capacity blocks on a fresh pool it fails only
after draining and rolling back, mutating the pool's internal links. -/
theorem C7_invalid_request :
    (∀ (m : Bitmap.Map) (need : Int),
      need ≤ 0 ∨ (Bitmap.BLOCK_COUNT : Int) < need →
      Bitmap.allocate_contiguous m need = (-1, m)) ∧
    (∀ (p : LinkedList.Pool) (num : Int), num ≤ 0 →
      LinkedList.get_blocks p num = (LinkedList.NO_BLOCK, p)) ∧
    (LinkedList.get_blocks LinkedList.setup 65).1 = LinkedList.NO_BLOCK ∧
    (LinkedList.get_blocks LinkedList.setup 65).2 ≠ LinkedList.setup := by
  refine ⟨?_, ?_, by decide, by decide⟩
  · intro m need h
    rw [Bitmap.allocate_contiguous, if_pos h]
  · intro p num h
    rw [LinkedList.get_blocks, if_pos h]

/-- Witness for C7: need -5 rejected by the bitmap with the map
unchanged; need 0 rejected by the linked list with the pool
unchanged. -/
theorem C7_invalid_request_witness :
    Bitmap.allocate_contiguous Bitmap.map_init (-5) = (-1, Bitmap.map_init) ∧
    LinkedList.get_blocks LinkedList.setup 0 =
      (LinkedList.NO_BLOCK, LinkedList.setup) :=
  ⟨C7_invalid_request.1 Bitmap.map_init (-5) (Or.inl (by norm_num)),
   C7_invalid_request.2.1 LinkedList.setup 0 (by norm_num)⟩

/-- C9: bitmap free is idempotent on any in-range extent, and every
block of the freed extent (already free or not) is free afterwards. -/
theorem C9_bitmap_free_idempotent (m : Bitmap.Map) (start count : Nat)
    (h : start + count ≤ Bitmap.BLOCK_COUNT) :
    Bitmap.free_contiguous (Bitmap.free_contiguous m start count) start count =
      Bitmap.free_contiguous m start count ∧
    ∀ i, start ≤ i → i < start + count →
      Bitmap.check_block_status (Bitmap.free_contiguous m start count) i = false :=
  ⟨Bitmap.free_contiguous_idem count m start,
   fun i h1 h2 => Bitmap.check_free_contiguous_in count m start i h1 h2⟩

/-- Witness for C9: freeing blocks [3,7) of a full map twice equals
freeing them once, and block 5 is free afterwards. -/
theorem C9_bitmap_free_idempotent_witness :
    Bitmap.free_contiguous
        (Bitmap.free_contiguous (List.replicate 8 255) 3 4) 3 4 =
      Bitmap.free_contiguous (List.replicate 8 255) 3 4 ∧
    Bitmap.check_block_status
      (Bitmap.free_contiguous (List.replicate 8 255) 3 4) 5 = false := by
  have h := C9_bitmap_free_idempotent (List.replicate 8 255) 3 4 (by decide)
  exact ⟨h.1, h.2 5 (by norm_num) (by norm_num)⟩

/-- C10: linked-list allocation takes the free-list front: with at
least `need` free blocks the call succeeds, returns the old free-list
head, the allocated chain is exactly the first `need` free blocks
linked in pop order (ending at the sentinel), and the new free list is
the old one with that front removed. -/
theorem C10_list_alloc_front (p : LinkedList.Pool) (l : List Nat) (need : Nat)
    (hlen : p.nxt.length = LinkedList.MAX_BLOCKS) (hnd : l.Nodup)
    (hb : ∀ x ∈ l, x < LinkedList.MAX_BLOCKS)
    (hl : LinkedList.chain p l p.free_start = true)
    (h1 : 1 ≤ need) (h2 : need ≤ l.length) :
    (LinkedList.get_blocks p (need : Int)).1 = p.free_start ∧
    LinkedList.chain (LinkedList.get_blocks p (need : Int)).2 (l.take need)
      p.free_start = true ∧
    LinkedList.chain (LinkedList.get_blocks p (need : Int)).2 (l.drop need)
      (LinkedList.get_blocks p (need : Int)).2.free_start = true := by
  obtain ⟨q, hq, hhead, hqlen, hqc, hql⟩ :=
    LinkedList.get_blocks_ok p l need hlen hnd hb hl h1 h2
  rw [hq]
  rw [hhead] at hqc
  exact ⟨hhead, hqc, hql⟩

/-- Witness for C10: on the fresh pool with free list 0..63, asking
for two blocks returns head 0, the chain is [0, 1], and the free list
becomes 2..63. -/
theorem C10_list_alloc_front_witness :
    (LinkedList.get_blocks LinkedList.setup ((2 : Nat) : Int)).1 =
      LinkedList.setup.free_start ∧
    LinkedList.chain (LinkedList.get_blocks LinkedList.setup ((2 : Nat) : Int)).2
      ((List.range 64).take 2) LinkedList.setup.free_start = true ∧
    LinkedList.chain (LinkedList.get_blocks LinkedList.setup ((2 : Nat) : Int)).2
      ((List.range 64).drop 2)
      (LinkedList.get_blocks LinkedList.setup ((2 : Nat) : Int)).2.free_start =
      true :=
  C10_list_alloc_front LinkedList.setup (List.range 64) 2 (by decide)
    (by decide) (by decide) (by decide) (by norm_num) (by decide)

/-- C2 (evaluation at the failing input): allocating two blocks from a
fresh pool yields the chain 0 -> 1; releasing it sets free_head to the
chain head 0 but the tail block 1 never rejoins the free list, because
the tail-finding loop stops one node short. -/
theorem C2_release_leaks_tail :
    (LinkedList.get_blocks LinkedList.setup 2).1 = 0 ∧
    LinkedList.nxtOf (LinkedList.get_blocks LinkedList.setup 2).2 0 = 1 ∧
    (LinkedList.release_blocks
      (LinkedList.get_blocks LinkedList.setup 2).2 0).free_start = 0 ∧
    LinkedList.blockIsFree
      (LinkedList.release_blocks (LinkedList.get_blocks LinkedList.setup 2).2 0)
      1 = false := by decide

/-- C4 (evaluation at the failing input): on a fresh pool block 2 is
free; allocate(3) then free of that chain does not restore the pool:
block 2 is left neither on the free list nor reachable, so the
round-trip changes the state. -/
theorem C4_round_trip_not_restored :
    LinkedList.blockIsFree LinkedList.setup 2 = true ∧
    (LinkedList.get_blocks LinkedList.setup 3).1 = 0 ∧
    LinkedList.release_blocks (LinkedList.get_blocks LinkedList.setup 3).2
      (LinkedList.get_blocks LinkedList.setup 3).1 ≠ LinkedList.setup ∧
    LinkedList.blockIsFree
      (LinkedList.release_blocks (LinkedList.get_blocks LinkedList.setup 3).2
        (LinkedList.get_blocks LinkedList.setup 3).1) 2 = false := by decide

namespace Bitmap

/-- The bitmap states reachable by allocations alone from a fresh map:
blocks [0, u) used, blocks [u, 64) free. -/
def PrefixUsed (m : Map) (u : Nat) : Prop :=
  m.length = MAP_SIZE ∧ u ≤ BLOCK_COUNT ∧
  ∀ i, i < BLOCK_COUNT → check_block_status m i = decide (i < u)

lemma prefixUsed_alloc_ok (m : Map) (u n : Nat) (hm : PrefixUsed m u)
    (h1 : 1 ≤ n) (h2 : n ≤ BLOCK_COUNT - u) :
    allocate_contiguous m (n : Int) = ((u : Int), markRun m u n) ∧
    PrefixUsed (markRun m u n) (u + n) := by
  obtain ⟨hlen, hu, hch⟩ := hm
  have hBC : BLOCK_COUNT = 64 := rfl
  have hrun : FreeRun m u n :=
    ⟨by omega, fun j hj =>
      (hch (u + j) (by omega)).trans (decide_eq_false (by omega))⟩
  have hlow : ∀ t, t < u → ¬ FreeRun m t n := by
    intro t ht hr
    have h0 := hr.2 0 (by omega)
    rw [Nat.add_zero, hch t (by omega)] at h0
    simp [ht] at h0
  rw [allocate_pos m n u h1 (by omega) hrun hlow]
  refine ⟨rfl, ?_, by omega, ?_⟩
  · rw [length_markRun]; exact hlen
  · intro i hi
    rw [check_markRun n m u hlen (by omega) i, hch i hi]
    by_cases hcase : u ≤ i ∧ i < u + n
    · rw [if_pos hcase]
      exact (decide_eq_true (by omega)).symm
    · rw [if_neg hcase]
      by_cases hiu : i < u
      · rw [decide_eq_true hiu, decide_eq_true (by omega)]
      · rw [decide_eq_false hiu, decide_eq_false (by omega)]

lemma prefixUsed_alloc_fail (m : Map) (u n : Nat) (hm : PrefixUsed m u)
    (h1 : 1 ≤ n) (h2 : BLOCK_COUNT - u < n) (h3 : n ≤ BLOCK_COUNT) :
    allocate_contiguous m (n : Int) = (-1, m) := by
  obtain ⟨hlen, hu, hch⟩ := hm
  have hBC : BLOCK_COUNT = 64 := rfl
  apply allocate_fail m n h1 h3
  intro s hr
  by_cases hs : s < u
  · have h0 := hr.2 0 (by omega)
    rw [Nat.add_zero, hch s (by omega)] at h0
    simp [hs] at h0
  · have := hr.1
    omega

end Bitmap

namespace LinkedList

/-- The head of a non-empty chain is never the sentinel. -/
lemma headInt_take_ne_noblock (l : List Nat) (n : Nat) (h1 : 1 ≤ n)
    (h2 : n ≤ l.length) : headInt (l.take n) ≠ NO_BLOCK := by
  cases l with
  | nil => simp at h2; omega
  | cons x xs =>
    cases n with
    | zero => omega
    | succ k =>
      simp only [List.take_succ_cons, headInt]
      exact int_natCast_ne_noblock x

end LinkedList

namespace Equiv

/-- For allocation-only request sequences, the two representations
stay in lock-step: the bitmap state is always a used-block prefix of
length `u`, the linked-list free list always holds exactly the other
64 - u blocks, and each allocation succeeds in one representation
exactly when it succeeds in the other. -/
lemma run_equiv_aux : ∀ (reqs : List Request) (m : Bitmap.Map)
    (p : LinkedList.Pool) (u : Nat) (l : List Nat)
    (t1 : List (Int × Int)) (t2 : List Int),
    (∀ r ∈ reqs, isAlloc r = true) →
    Bitmap.PrefixUsed m u →
    p.nxt.length = LinkedList.MAX_BLOCKS →
    l.Nodup →
    (∀ x ∈ l, x < LinkedList.MAX_BLOCKS) →
    LinkedList.chain p l p.free_start = true →
    l.length = Bitmap.BLOCK_COUNT - u →
    runBitmap m t1 reqs = runList p t2 reqs
  | [], _, _, _, _, _, _, _, _, _, _, _, _, _ => rfl
  | .release i :: rs, m, p, u, l, t1, t2, hall, _, _, _, _, _, _ => by
    have := hall (.release i) (by simp)
    simp [isAlloc] at this
  | .alloc n :: rs, m, p, u, l, t1, t2, hall, hm, hplen, hnd, hbnd, hch, hlink => by
    have hrs : ∀ r ∈ rs, isAlloc r = true := fun r hr => hall r (by simp [hr])
    have hu : u ≤ 64 := hm.2.1
    by_cases hn0 : n ≤ 0
    · have hbm : Bitmap.allocate_contiguous m n = (-1, m) := by
        rw [Bitmap.allocate_contiguous, if_pos (Or.inl hn0)]
      have hll : LinkedList.get_blocks p n = (LinkedList.NO_BLOCK, p) := by
        rw [LinkedList.get_blocks, if_pos hn0]
      rw [runBitmap, runList, hbm, hll]
      simp only [ne_eq]
      rw [run_equiv_aux rs m p u l _ _ hrs hm hplen hnd hbnd hch hlink]
    · obtain ⟨nn, rfl⟩ : ∃ k : Nat, n = (k : Int) :=
        ⟨n.toNat, (Int.toNat_of_nonneg (by omega)).symm⟩
      have hnn1 : 1 ≤ nn := by omega
      by_cases hle : nn ≤ l.length
      · obtain ⟨hbm, hm2⟩ := Bitmap.prefixUsed_alloc_ok m u nn hm hnn1 (by omega)
        obtain ⟨q, hq, hhead, hqlen, hqc, hql⟩ :=
          LinkedList.get_blocks_ok p l nn hplen hnd hbnd hch hnn1 hle
        rw [runBitmap, runList, hbm, hq]
        simp only [ne_eq]
        rw [run_equiv_aux rs (Bitmap.markRun m u nn) q (u + nn) (l.drop nn) _ _
          hrs hm2 hqlen ((List.drop_sublist nn l).nodup hnd)
          (fun x hx => hbnd x (List.mem_of_mem_drop hx)) hql
          (by rw [List.length_drop]; omega)]
        congr 1
        have hne := LinkedList.headInt_take_ne_noblock l nn hnn1 hle
        simp [hne]
      · obtain ⟨q, hq, hqlen, hqchain⟩ :=
          LinkedList.get_blocks_fail p l nn hplen hnd hbnd hch (by omega)
        have hbm : Bitmap.allocate_contiguous m ((nn : Nat) : Int) = (-1, m) := by
          by_cases hbig : nn ≤ Bitmap.BLOCK_COUNT
          · exact Bitmap.prefixUsed_alloc_fail m u nn hm hnn1 (by omega) hbig
          · rw [Bitmap.allocate_contiguous,
              if_pos (Or.inr (by exact_mod_cast by omega))]
        rw [runBitmap, runList, hbm, hq]
        simp only [ne_eq]
        rw [run_equiv_aux rs m q u l.reverse _ _ hrs hm hqlen
          (by simpa using hnd) (fun x hx => hbnd x (by simpa using hx))
          hqchain (by simpa using hlink)]

end Equiv

/-- C8 counterexample: the request sequence [alloc 1, alloc 1, release
the first allocation, alloc 63] succeeds at every step on the linked
list (63 blocks are free, contiguity is irrelevant) but its last step
fails on the bitmap (the free blocks are 0 and [2, 64), with no
contiguous run of 63), so the two representations do not produce
identical success/failure outcomes for every request sequence. -/
theorem C8_counterexample :
    Equiv.runBitmap Bitmap.map_init []
        [Equiv.Request.alloc 1, Equiv.Request.alloc 1,
         Equiv.Request.release 0, Equiv.Request.alloc 63] ≠
      Equiv.runList LinkedList.setup []
        [Equiv.Request.alloc 1, Equiv.Request.alloc 1,
         Equiv.Request.release 0, Equiv.Request.alloc 63] := by decide

/-- C8 amended: for every allocation-only request sequence applied
from freshly reset pools, the two representations produce identical
success/failure outcomes for each call. -/
theorem C8_alloc_only_equiv (reqs : List Equiv.Request)
    (h : ∀ r ∈ reqs, Equiv.isAlloc r = true) :
    Equiv.runBitmap Bitmap.map_init [] reqs =
      Equiv.runList LinkedList.setup [] reqs :=
  Equiv.run_equiv_aux reqs Bitmap.map_init LinkedList.setup 0 (List.range 64)
    [] [] h ⟨rfl, by decide, by decide⟩ (by decide) (by decide) (by decide)
    (by decide) (by decide)

/-- Witness for C8 amended: on the allocation-only sequence
[alloc 2, alloc 100] the two outcome lists coincide. -/
theorem C8_alloc_only_equiv_witness :
    Equiv.runBitmap Bitmap.map_init []
        [Equiv.Request.alloc 2, Equiv.Request.alloc 100] =
      Equiv.runList LinkedList.setup []
        [Equiv.Request.alloc 2, Equiv.Request.alloc 100] :=
  C8_alloc_only_equiv [Equiv.Request.alloc 2, Equiv.Request.alloc 100]
    (by decide)
